import Mathlib

/-!
Verification of the lyrics quiz pipeline: word extraction, blank selection,
blank-marker encoding, and answer normalization/comparison.

Strings are modelled as `List Char`.  The JavaScript functions
`extractWords`, `selectBlanks`, `generateQuizLyrics` (scripts/generate-quiz.js)
and `normalizeText`, `compareAnswers` (textNormalize module) are embedded as
executable Lean definitions below.
-/

namespace LyricsIQ

/-- Whitespace recognised by the JavaScript `String.prototype.trim`. -/
def isJSWS (c : Char) : Bool :=
  c == ' ' || c == '\t' || c == '\n' || c == '\u000B' || c == '\u000C' || c == '\r' ||
  c == '\u00A0' || c == '\u1680' || ('\u2000' ≤ c && c ≤ '\u200A') ||
  c == '\u2028' || c == '\u2029' || c == '\u202F' || c == '\u205F' ||
  c == '\u3000' || c == '\uFEFF'

/-- The JavaScript `trim`: drop whitespace from both ends. -/
def jsTrim (s : List Char) : List Char :=
  ((s.dropWhile isJSWS).reverse.dropWhile isJSWS).reverse

/-- ASCII lower-casing of a single character, as `toLowerCase` acts on the
character sets this pipeline deals with. -/
def toLowerChar (c : Char) : Char :=
  if 65 ≤ c.toNat ∧ c.toNat ≤ 90 then Char.ofNat (c.toNat + 32) else c

/-- The apostrophe canonicalisation step of `normalizeText`:
U+2019, U+02BC, U+00B4 become an ASCII apostrophe. -/
def aposToStd (c : Char) : Char :=
  if c == '\u2019' || c == '\u02BC' || c == '\u00B4' then '\'' else c

/-- The dash canonicalisation step of `normalizeText`:
U+2013, U+2014, U+2212 become an ASCII hyphen. -/
def dashToStd (c : Char) : Char :=
  if c == '\u2013' || c == '\u2014' || c == '\u2212' then '-' else c

/-- `normalizeText` from the textNormalize module: `undefined`/empty input maps
to the empty string, otherwise trim, lower-case, then canonicalise apostrophes
and dashes.  The `Option` argument models a possibly-`undefined` JS value. -/
def normalizeText (t : Option (List Char)) : List Char :=
  match t with
  | none => []
  | some s =>
    if s.isEmpty then []
    else (((jsTrim s).map toLowerChar).map aposToStd).map dashToStd

/-- `compareAnswers` from the textNormalize module: equality of the two
normalised strings. -/
def compareAnswers (userAnswer correctAnswer : Option (List Char)) : Bool :=
  normalizeText userAnswer == normalizeText correctAnswer

/-- A candidate blankable word, as produced by `extractWords`: the exact
substring, its zero-based line index, its character offset within the line,
and the (redundant) stored length field. -/
structure Token where
  word : List Char
  lineIndex : Nat
  position : Nat
  length : Nat
  deriving Repr, DecidableEq

/-- The JavaScript `text.split('\n')`: always returns one more part than the
number of newline characters; the empty string splits to `[""]`. -/
def splitLines : List Char → List (List Char)
  | [] => [[]]
  | c :: cs =>
    if c = '\n' then [] :: splitLines cs
    else
      match splitLines cs with
      | [] => [[c]]
      | l :: ls => (c :: l) :: ls

/-- Rejoining lines with `'\n'`, the JavaScript `lines.join('\n')`. -/
def joinLines : List (List Char) → List Char
  | [] => []
  | [l] => l
  | l :: ls => l ++ '\n' :: joinLines ls

/-- A word character of the JavaScript regex class `\w`: ASCII letters,
digits, underscore. -/
def isWordChar (c : Char) : Bool :=
  c.isAlphanum || c == '_'

/-- A character of the regex class `[\w'-]` used by the tokenizer. -/
def isClassChar (c : Char) : Bool :=
  isWordChar c || c == '\'' || c == '-'

/-- Maximal runs of `[\w'-]` characters in a line, with their start offsets.
`collectRuns cs i` scans `cs`, whose first character sits at offset `i`. -/
def collectRuns : List Char → Nat → List (Nat × List Char)
  | [], _ => []
  | c :: cs, i =>
    let rest := collectRuns cs (i + 1)
    if isClassChar c then
      match rest with
      | (j, run) :: rs => if j = i + 1 then (i, c :: run) :: rs else (i, [c]) :: rest
      | [] => [(i, [c])]
    else rest

/-- A match of `\b[\w'-]+\b` inside a maximal `[\w'-]` run: the run trimmed
to the span from its first to its last `\w` character (empty if the run has
no `\w` character), together with the offset of that first `\w` character. -/
def trimCore (run : List Char) : List Char :=
  ((run.dropWhile (fun c => !(isWordChar c))).reverse.dropWhile (fun c => !(isWordChar c))).reverse

/-- See `trimRun` below. -/
def trimRun (p : Nat × List Char) : Nat × List Char :=
  (p.1 + (p.2.takeWhile (fun c => !(isWordChar c))).length, trimCore p.2)

/-- Lower-casing a word, the JavaScript `word.toLowerCase()`. -/
def lowerStr (w : List Char) : List Char :=
  w.map toLowerChar

/-- The fixed stoplist of common words skipped by `extractWords`. -/
def commonWords : List (List Char) :=
  ["the", "and", "but", "for", "with", "from", "that", "this", "have",
   "has", "was", "were"].map String.toList

/-- The token a run yields, if any: the trimmed match must be nonempty,
longer than 2 characters, and not stoplisted. -/
def tokenOfRun (li : Nat) (p : Nat × List Char) : Option Token :=
  if (trimRun p).2.isEmpty then none
  else if (trimRun p).2.length ≤ 2 then none
  else if commonWords.contains (lowerStr (trimRun p).2) then none
  else some ⟨(trimRun p).2, li, (trimRun p).1, (trimRun p).2.length⟩

/-- Token candidates of a single surviving line: regex matches of
`\b[\w'-]+\b`, dropping words of length ≤ 2 and stoplisted words. -/
def lineTokens (line : List Char) (li : Nat) : List Token :=
  (collectRuns line 0).filterMap (tokenOfRun li)

/-- The test `!line.trim() || line.match(/^\[.*\]$/)` that makes
`extractWords` skip a line: whitespace-only, or a single bracketed marker
(`.` does not match line terminators). -/
def isSkippedLine (line : List Char) : Bool :=
  (jsTrim line).isEmpty ||
  (decide (2 ≤ line.length) && line.head? == some '[' && line.getLast? == some ']' &&
    ((line.drop 1).dropLast.all fun c =>
      !(c == '\r' || c == '\n' || c == '\u2028' || c == '\u2029')))

/-- The per-line loop of `extractWords`: skipped lines emit no tokens but
still advance the line index. -/
def extractLines : List (List Char) → Nat → List Token
  | [], _ => []
  | l :: ls, li =>
    (if isSkippedLine l then [] else lineTokens l li) ++ extractLines ls (li + 1)

/-- `extractWords` from scripts/generate-quiz.js. -/
def extractWords (lyrics : List Char) : List Token :=
  extractLines (splitLines lyrics) 0

/-- The JavaScript `array.slice(0, count)` for a possibly negative `count`. -/
def jsSlice (l : List Token) (count : Int) : List Token :=
  if count < 0 then l.take ((l.length + count).toNat) else l.take count.toNat

/-- The comparator of the final re-sort in `selectBlanks`: ascending
`lineIndex`, ties broken by ascending `position`. -/
def posOrder (a b : Token) : Prop :=
  a.lineIndex < b.lineIndex ∨ (a.lineIndex = b.lineIndex ∧ a.position ≤ b.position)

instance : DecidableRel posOrder := fun a b => by
  unfold posOrder; infer_instance

/-- The ordering of the `important` strategy: stored `length` descending
(a stable sort, so ties keep their original relative order). -/
def impOrder (a b : Token) : Prop :=
  b.length ≤ a.length

instance : DecidableRel impOrder := fun a b => by
  unfold impOrder; infer_instance

/-- The frequency table of the `frequent` strategy: occurrences of a
lower-cased word form among all tokens. -/
def freqOf (words : List Token) (w : List Char) : Nat :=
  (words.filter (fun v => lowerStr v.word == w)).length

/-- The ordering of the `frequent` strategy: frequency of the lower-cased
word descending (stable). -/
def freqOrder (words : List Token) (a b : Token) : Prop :=
  freqOf words (lowerStr b.word) ≤ freqOf words (lowerStr a.word)

instance (words : List Token) : DecidableRel (freqOrder words) := fun a b => by
  unfold freqOrder; infer_instance

/-- `selectBlanks` from scripts/generate-quiz.js.  The `random`/default
branch shuffles with `sort(() => Math.random() - 0.5)`, whose only
guarantee is that it permutes the array; it is modelled by the explicit
`shuffle` argument.  JavaScript's `Array.prototype.sort` is stable, hence
the stable `List.insertionSort`. -/
def selectBlanks (words : List Token) (count : Int) (strategy : String)
    (shuffle : List Token → List Token) : List Token :=
  if words.isEmpty then []
  else
    let selectedWords :=
      if strategy = "important" then jsSlice (List.insertionSort impOrder words) count
      else if strategy = "frequent" then
        jsSlice (List.insertionSort (freqOrder words) words) count
      else jsSlice (shuffle words) count
    List.insertionSort posOrder selectedWords

/-- Decimal digits of a natural number, accumulator and fuel driven so that
the recursion is structural.  `fuel ≥ n` suffices to render `n` fully. -/
def natDigitsAux : Nat → Nat → List Char → List Char
  | _, 0, acc => acc
  | 0, _ + 1, acc => acc
  | fuel + 1, n + 1, acc =>
    natDigitsAux fuel ((n + 1) / 10) (Char.ofNat (48 + (n + 1) % 10) :: acc)

/-- Decimal rendering of a natural number, the JavaScript `${n}`. -/
def natDigits (n : Nat) : List Char :=
  if n = 0 then ['0'] else natDigitsAux n n []

/-- The placeholder `_____${id}_____` spliced in for a blank. -/
def placeholder (id : Nat) : List Char :=
  "_____".toList ++ natDigits id ++ "_____".toList

/-- The per-blank `forEach` of `generateQuizLyrics`, pairing each blank with
its index. -/
def attachIds : List Token → Nat → List (Token × Nat)
  | [], _ => []
  | b :: bs, i => (b, i) :: attachIds bs (i + 1)

/-- The blanks grouped onto one line by `blanksMap`, in original order. -/
def lineBlanks (ibs : List (Token × Nat)) (li : Nat) : List (Token × Nat) :=
  ibs.filter (fun b => b.1.lineIndex == li)

/-- One replacement step of `generateQuizLyrics`:
`before + placeholder + after` around the span starting at the blank's
position with the blank's word length. -/
def replaceBlank (line : List Char) (b : Token × Nat) : List Char :=
  line.take b.1.position ++ placeholder b.2 ++
    line.drop (b.1.position + b.1.word.length)

/-- The order in which one line's blanks are processed: position descending
(a stable sort of the line's blanks). -/
def descPos (a b : Token × Nat) : Prop :=
  b.1.position ≤ a.1.position

instance : DecidableRel descPos := fun a b => by
  unfold descPos; infer_instance

/-- Rewriting one line: its blanks sorted by descending position, each
replacement applied in turn. -/
def encodeLine (line : List Char) (lbs : List (Token × Nat)) : List Char :=
  (List.insertionSort descPos lbs).foldl replaceBlank line

/-- The `lines.map((line, lineIndex) => ...)` of `generateQuizLyrics`:
lines without blanks pass through, the rest are rewritten. -/
def quizLines : List (List Char) → List (Token × Nat) → Nat → List (List Char)
  | [], _, _ => []
  | l :: ls, ibs, i =>
    (if (lineBlanks ibs i).isEmpty then l else encodeLine l (lineBlanks ibs i)) ::
      quizLines ls ibs (i + 1)

/-- `generateQuizLyrics` from scripts/generate-quiz.js. -/
def generateQuizLyrics (lyrics : List Char) (blanks : List Token) : List Char :=
  joinLines (quizLines (splitLines lyrics) (attachIds blanks 0) 0)

/-! ### Lemmas about the normalizer -/

/-- The pointwise character map applied by `normalizeText` after trimming. -/
def normChar (c : Char) : Char :=
  dashToStd (aposToStd (toLowerChar c))

theorem toNat_ofNat_valid (n : Nat) (h : n < 55296) : (Char.ofNat n).toNat = n := by
  have hv : n.isValidChar := Or.inl h
  rw [Char.ofNat, dif_pos hv]
  rfl

theorem char_eq_iff {a b : Char} : a = b ↔ a.toNat = b.toNat :=
  ⟨fun h => by rw [h], fun h => Char.ext (UInt32.ext h)⟩

theorem toNat_toLowerChar (c : Char) :
    (toLowerChar c).toNat = if 65 ≤ c.toNat ∧ c.toNat ≤ 90 then c.toNat + 32 else c.toNat := by
  unfold toLowerChar
  split
  · next h => exact toNat_ofNat_valid _ (by omega)
  · rfl

theorem toNat_aposToStd (c : Char) :
    (aposToStd c).toNat =
      if c.toNat = 8217 ∨ c.toNat = 700 ∨ c.toNat = 180 then 39 else c.toNat := by
  have hcond : ((c == '\u2019' || c == '\u02BC' || c == '\u00B4') = true) ↔
      (c.toNat = 8217 ∨ c.toNat = 700 ∨ c.toNat = 180) := by
    simp only [Bool.or_eq_true, beq_iff_eq, char_eq_iff]
    rw [show ('\u2019'.toNat) = 8217 from rfl, show ('\u02BC'.toNat) = 700 from rfl,
      show ('\u00B4'.toNat) = 180 from rfl]
    tauto
  unfold aposToStd
  split
  · next h => rw [if_pos (hcond.mp h)]; rfl
  · next h => rw [if_neg (fun hh => h (hcond.mpr hh))]

theorem toNat_dashToStd (c : Char) :
    (dashToStd c).toNat =
      if c.toNat = 8211 ∨ c.toNat = 8212 ∨ c.toNat = 8722 then 45 else c.toNat := by
  have hcond : ((c == '\u2013' || c == '\u2014' || c == '\u2212') = true) ↔
      (c.toNat = 8211 ∨ c.toNat = 8212 ∨ c.toNat = 8722) := by
    simp only [Bool.or_eq_true, beq_iff_eq, char_eq_iff]
    rw [show ('\u2013'.toNat) = 8211 from rfl, show ('\u2014'.toNat) = 8212 from rfl,
      show ('\u2212'.toNat) = 8722 from rfl]
    tauto
  unfold dashToStd
  split
  · next h => rw [if_pos (hcond.mp h)]; rfl
  · next h => rw [if_neg (fun hh => h (hcond.mpr hh))]

/-- Code-point level description of `normChar`. -/
def natNorm (n : Nat) : Nat :=
  if 65 ≤ n ∧ n ≤ 90 then n + 32
  else if n = 8217 ∨ n = 700 ∨ n = 180 then 39
  else if n = 8211 ∨ n = 8212 ∨ n = 8722 then 45
  else n

theorem toNat_normChar (c : Char) : (normChar c).toNat = natNorm c.toNat := by
  unfold normChar natNorm
  rw [toNat_dashToStd, toNat_aposToStd, toNat_toLowerChar]
  split_ifs <;> omega

theorem natNorm_idem (n : Nat) : natNorm (natNorm n) = natNorm n := by
  unfold natNorm
  split_ifs <;> omega

theorem normChar_idem (c : Char) : normChar (normChar c) = normChar c := by
  rw [char_eq_iff, toNat_normChar, toNat_normChar]
  exact natNorm_idem _

theorem char_le_iff {a b : Char} : a ≤ b ↔ a.toNat ≤ b.toNat :=
  Iff.rfl

/-- Code-point level description of the JS whitespace test. -/
def natIsWS (n : Nat) : Prop :=
  n = 32 ∨ n = 9 ∨ n = 10 ∨ n = 11 ∨ n = 12 ∨ n = 13 ∨
  n = 160 ∨ n = 5760 ∨ (8192 ≤ n ∧ n ≤ 8202) ∨
  n = 8232 ∨ n = 8233 ∨ n = 8239 ∨ n = 8287 ∨ n = 12288 ∨ n = 65279

theorem isJSWS_iff (c : Char) : isJSWS c = true ↔ natIsWS c.toNat := by
  unfold isJSWS natIsWS
  simp only [Bool.or_eq_true, Bool.and_eq_true, beq_iff_eq, char_eq_iff, decide_eq_true_eq,
    char_le_iff]
  rw [show (' '.toNat) = 32 from rfl, show ('\t'.toNat) = 9 from rfl,
    show ('\n'.toNat) = 10 from rfl, show ('\u000B'.toNat) = 11 from rfl,
    show ('\u000C'.toNat) = 12 from rfl, show ('\r'.toNat) = 13 from rfl,
    show ('\u00A0'.toNat) = 160 from rfl, show ('\u1680'.toNat) = 5760 from rfl,
    show ('\u2000'.toNat) = 8192 from rfl, show ('\u200A'.toNat) = 8202 from rfl,
    show ('\u2028'.toNat) = 8232 from rfl, show ('\u2029'.toNat) = 8233 from rfl,
    show ('\u202F'.toNat) = 8239 from rfl, show ('\u205F'.toNat) = 8287 from rfl,
    show ('\u3000'.toNat) = 12288 from rfl, show ('\uFEFF'.toNat) = 65279 from rfl]
  tauto

theorem natIsWS_natNorm (n : Nat) : natIsWS (natNorm n) ↔ natIsWS n := by
  unfold natNorm natIsWS
  split_ifs <;> omega

theorem isJSWS_normChar (c : Char) : isJSWS (normChar c) = isJSWS c := by
  by_cases h : isJSWS c = true
  · rw [h, isJSWS_iff, toNat_normChar, natIsWS_natNorm, ← isJSWS_iff]
    exact h
  · rw [Bool.eq_false_iff.mpr h, ← Bool.not_eq_true, isJSWS_iff, toNat_normChar,
      natIsWS_natNorm, ← isJSWS_iff]
    exact h

theorem normalizeText_some_eq (s : List Char) :
    normalizeText (some s) = (jsTrim s).map normChar := by
  show (if s.isEmpty then [] else (((jsTrim s).map toLowerChar).map aposToStd).map dashToStd)
      = (jsTrim s).map normChar
  by_cases h : s.isEmpty
  · rw [if_pos h]
    rw [List.isEmpty_iff] at h
    subst h
    rfl
  · rw [if_neg h, List.map_map, List.map_map]
    rfl

theorem dropWhile_self_of_head {p : Char → Bool} {l : List Char}
    (h : ∀ c, l.head? = some c → p c = false) : l.dropWhile p = l := by
  cases l with
  | nil => rfl
  | cons c cs =>
    have := h c rfl
    simp [List.dropWhile_cons, this]

theorem dropWhile_head?_not (p : Char → Bool) :
    ∀ (l : List Char) (c : Char), (l.dropWhile p).head? = some c → p c = false := by
  intro l
  induction l with
  | nil => intro c hc; simp at hc
  | cons a as ih =>
    intro c hc
    by_cases h : p a = true
    · rw [List.dropWhile_cons_of_pos h] at hc
      exact ih c hc
    · rw [List.dropWhile_cons_of_neg h] at hc
      simp only [List.head?_cons, Option.some_inj] at hc
      rw [← hc]
      exact Bool.eq_false_iff.mpr h
  
theorem jsTrim_idem (s : List Char) : jsTrim (jsTrim s) = jsTrim s := by
  unfold jsTrim
  set u := s.dropWhile isJSWS with hu
  set v := u.reverse.dropWhile isJSWS with hv
  have hA : v.dropWhile isJSWS = v := by
    apply dropWhile_self_of_head
    intro c hc
    rw [hv] at hc
    exact dropWhile_head?_not isJSWS u.reverse c hc
  have hB : v.reverse.dropWhile isJSWS = v.reverse := by
    apply dropWhile_self_of_head
    intro c hc
    rw [List.head?_reverse] at hc
    have hvne : v ≠ [] := by
      intro h
      rw [h] at hc
      simp at hc
    have hsplit : u.reverse.takeWhile isJSWS ++ v = u.reverse := by
      rw [hv]
      exact List.takeWhile_append_dropWhile ..
    have hlast : u.reverse.getLast? = v.getLast? := by
      rw [← hsplit, List.getLast?_append_of_ne_nil _ hvne]
    rw [← hlast, List.getLast?_reverse] at hc
    rw [hu] at hc
    exact dropWhile_head?_not isJSWS s c hc
  rw [hB, List.reverse_reverse, hA]

theorem jsTrim_map_normChar (s : List Char) :
    jsTrim (s.map normChar) = (jsTrim s).map normChar := by
  have hp : (isJSWS ∘ normChar) = isJSWS := funext isJSWS_normChar
  unfold jsTrim
  rw [List.dropWhile_map, hp, ← List.map_reverse, List.dropWhile_map, hp, ← List.map_reverse]

/-! ### Claim theorems for the normalizer -/

/-- Applying the per-character normalisation map twice is the same as
applying it once. -/
theorem map_normChar_map_normChar (l : List Char) :
    (l.map normChar).map normChar = l.map normChar := by
  induction l with
  | nil => rfl
  | cons c cs ih => simp only [List.map_cons, ih, normChar_idem]

/-- C7: normalization is idempotent: for every string `s`,
`normalize(normalize(s))` equals `normalize(s)`. -/
theorem normalize_idempotent (t : Option (List Char)) :
    normalizeText (some (normalizeText t)) = normalizeText t := by
  cases t with
  | none => rfl
  | some s =>
    rw [normalizeText_some_eq s, normalizeText_some_eq, jsTrim_map_normChar, jsTrim_idem,
      map_normChar_map_normChar]

/-- C6: `normalize` trims surrounding whitespace, lower-cases, maps U+2019,
U+02BC, U+00B4 to an ASCII apostrophe and U+2013, U+2014, U+2212 to an ASCII
hyphen, and maps empty/undefined input to the empty string; `answersEqual`
is exact equality of the normalised strings, so the four quoted comparisons
come out as the claim states. -/
theorem normalize_and_compare_examples :
    normalizeText none = [] ∧
    normalizeText (some []) = [] ∧
    normalizeText (some [' ', ' ', 'H', 'e', 'l', 'l', 'o', ' ']) = ['h', 'e', 'l', 'l', 'o'] ∧
    normalizeText (some ['\u2019']) = ['\''] ∧
    normalizeText (some ['\u02BC']) = ['\''] ∧
    normalizeText (some ['\u00B4']) = ['\''] ∧
    normalizeText (some ['\u2013']) = ['-'] ∧
    normalizeText (some ['\u2014']) = ['-'] ∧
    normalizeText (some ['\u2212']) = ['-'] ∧
    (∀ a b, compareAnswers a b = (normalizeText a == normalizeText b)) ∧
    compareAnswers (some ['d', 'o', 'n', '\'', 't']) (some ['d', 'o', 'n', '\u2019', 't']) = true ∧
    compareAnswers (some ['s', 'a', 'y', '-', 's', 'o'])
      (some ['s', 'a', 'y', '\u2013', 's', 'o']) = true ∧
    compareAnswers (some ['H', 'e', 'l', 'l', 'o']) (some ['h', 'e', 'l', 'l', 'o']) = true ∧
    compareAnswers (some ['c', 'a', 't']) (some ['c', 'a', 't', 's']) = false :=
  ⟨rfl, rfl, by decide, by decide, by decide, by decide, by decide, by decide, by decide,
    fun _ _ => rfl, by decide, by decide, by decide, by decide⟩

/-! ### Claim theorems for the selector -/

theorem posOrder_total : ∀ a b : Token, posOrder a b ∨ posOrder b a := by
  intro a b
  unfold posOrder
  omega

theorem posOrder_trans : ∀ a b c : Token, posOrder a b → posOrder b c → posOrder a c := by
  intro a b c hab hbc
  unfold posOrder at hab hbc ⊢
  omega

theorem jsSlice_length_nonneg (l : List Token) (count : Int) (hc : 0 ≤ count) :
    (jsSlice l count).length = min count.toNat l.length := by
  unfold jsSlice
  rw [if_neg (not_lt.mpr hc), List.length_take]

/-- C1: for every token list, every count ≥ 0 and every strategy string
(`random`, `important`, `frequent` or anything else), `selectBlanks` returns
exactly `min count tokens.length` tokens; in particular the empty token list
yields the empty selection.  The `shuffle` argument models the
`sort(() => Math.random() - 0.5)` call of the `random`/default branch, whose
only relevant guarantee is that sorting preserves length. -/
theorem selectBlanks_length (words : List Token) (count : Int) (strategy : String)
    (shuffle : List Token → List Token)
    (hc : 0 ≤ count) (hs : (shuffle words).length = words.length) :
    (selectBlanks words count strategy shuffle).length = min count.toNat words.length := by
  unfold selectBlanks
  by_cases hw : words.isEmpty
  · rw [if_pos hw]
    rw [List.isEmpty_iff] at hw
    subst hw
    simp
  · rw [if_neg hw, List.length_insertionSort]
    split_ifs with h1 h2 <;>
      rw [jsSlice_length_nonneg _ _ hc] <;>
      first
        | rw [List.length_insertionSort]
        | rw [hs]

/-- C1 witness: the theorem instantiated on the tokens of a concrete line
with count 2 and the `frequent` strategy. -/
theorem selectBlanks_length_witness :
    (0 : Int) ≤ 2 ∧
      (selectBlanks (extractWords "The cat sat on a mat.".toList) 2 "frequent" id).length =
        min (2 : Int).toNat (extractWords "The cat sat on a mat.".toList).length :=
  ⟨by decide, selectBlanks_length _ 2 "frequent" id (by decide) rfl⟩

/-- C2: whatever the strategy and whatever the shuffle does, the output of
`selectBlanks` is sorted by `(lineIndex, position)` ascending, because the
selected subset is always re-sorted with the positional comparator before
being returned. -/
theorem selectBlanks_sorted (words : List Token) (count : Int) (strategy : String)
    (shuffle : List Token → List Token) :
    List.Pairwise posOrder (selectBlanks words count strategy shuffle) := by
  unfold selectBlanks
  by_cases hw : words.isEmpty
  · rw [if_pos hw]
    exact List.Pairwise.nil
  · rw [if_neg hw]
    haveI : IsTotal Token posOrder := ⟨posOrder_total⟩
    haveI : IsTrans Token posOrder := ⟨posOrder_trans⟩
    exact List.sorted_insertionSort posOrder _

/-- C3 counterexample: on `"Amazing grace how sweet the sound\n"` with the
`important` strategy and count 2, the stable length-descending sort places
`grace` (position 8) before `sweet` and `sound`, so the selection is
`Amazing, grace` — `sound` is NOT selected, contradicting the claim. -/
theorem important_does_not_pick_sound :
    (selectBlanks (extractWords "Amazing grace how sweet the sound\n".toList) 2 "important"
        id).map (fun t => t.word) = ["Amazing".toList, "grace".toList] ∧
    "sound".toList ∉
      (selectBlanks (extractWords "Amazing grace how sweet the sound\n".toList) 2 "important"
        id).map (fun t => t.word) := by
  constructor <;> decide

/-- C3 (amended): on `"Amazing grace how sweet the sound\n"` with strategy
`important` and count 2, selection picks `Amazing` and `grace` (length
descending, stable ties in original order), and the generated quiz text
contains exactly two placeholders whose digits are 0 and 1 in line-position
order. -/
theorem important_two_blanks_amazing_grace :
    (selectBlanks (extractWords "Amazing grace how sweet the sound\n".toList) 2 "important"
        id).map (fun t => t.word) = ["Amazing".toList, "grace".toList] ∧
    generateQuizLyrics "Amazing grace how sweet the sound\n".toList
        (selectBlanks (extractWords "Amazing grace how sweet the sound\n".toList) 2 "important"
          id) =
      "_____0_____ _____1_____ how sweet the sound\n".toList := by
  constructor <;> decide

/-- C9: evaluating `selectBlanks` at a negative count: JavaScript
`slice(0, -1)` silently drops one element from the end instead of raising, so
on the three tokens of `"The cat sat on a mat."` the call returns a
non-empty two-token selection. -/
theorem selectBlanks_negative_count_eval :
    (selectBlanks (extractWords "The cat sat on a mat.".toList) (-1) "important" id).length = 2 ∧
    selectBlanks (extractWords "The cat sat on a mat.".toList) (-1) "important" id ≠ [] := by
  constructor <;> decide

/-! ### Split/join infrastructure for the encoder claims -/

theorem splitLines_ne_nil (s : List Char) : splitLines s ≠ [] := by
  induction s with
  | nil => simp [splitLines]
  | cons c cs ih =>
    unfold splitLines
    split
    · simp
    · cases h : splitLines cs with
      | nil => simp
      | cons l ls => simp

theorem not_newline_mem_splitLines (s : List Char) :
    ∀ l ∈ splitLines s, '\n' ∉ l := by
  induction s with
  | nil =>
    intro l hl
    simp [splitLines] at hl
    simp [hl]
  | cons c cs ih =>
    intro l hl
    unfold splitLines at hl
    by_cases hc : c = '\n'
    · rw [if_pos hc] at hl
      rcases List.mem_cons.mp hl with h | h
      · simp [h]
      · exact ih l h
    · rw [if_neg hc] at hl
      cases h : splitLines cs with
      | nil => exact absurd h (splitLines_ne_nil cs)
      | cons l0 ls =>
        rw [h] at hl
        rcases List.mem_cons.mp hl with h1 | h1
        · subst h1
          intro hmem
          rcases List.mem_cons.mp hmem with h2 | h2
          · exact hc h2.symm
          · exact ih l0 (h ▸ List.mem_cons_self l0 ls) h2
        · exact ih l (h ▸ List.mem_cons_of_mem l0 h1)

theorem splitLines_of_not_mem {l : List Char} (h : '\n' ∉ l) : splitLines l = [l] := by
  induction l with
  | nil => rfl
  | cons c cs ih =>
    have hc : c ≠ '\n' := fun hh => h (hh ▸ List.mem_cons_self c cs)
    have hcs : '\n' ∉ cs := fun hh => h (List.mem_cons_of_mem c hh)
    unfold splitLines
    rw [if_neg hc, ih hcs]

theorem splitLines_append_newline {l : List Char} (rest : List Char) (h : '\n' ∉ l) :
    splitLines (l ++ '\n' :: rest) = l :: splitLines rest := by
  induction l with
  | nil =>
    show splitLines ('\n' :: rest) = [] :: splitLines rest
    simp [splitLines]
  | cons c cs ih =>
    have hc : c ≠ '\n' := fun hh => h (hh ▸ List.mem_cons_self c cs)
    have hcs : '\n' ∉ cs := fun hh => h (List.mem_cons_of_mem c hh)
    show splitLines (c :: (cs ++ '\n' :: rest)) = (c :: cs) :: splitLines rest
    simp only [splitLines, hc, if_false, ih hcs]

theorem splitLines_joinLines : ∀ ls : List (List Char), ls ≠ [] →
    (∀ l ∈ ls, '\n' ∉ l) → splitLines (joinLines ls) = ls := by
  intro ls
  induction ls with
  | nil => intro h; exact absurd rfl h
  | cons l ls ih =>
    intro _ hmem
    cases ls with
    | nil =>
      show splitLines (joinLines [l]) = [l]
      exact splitLines_of_not_mem (hmem l (List.mem_cons_self l []))
    | cons l2 ls2 =>
      show splitLines (l ++ '\n' :: joinLines (l2 :: ls2)) = l :: l2 :: ls2
      rw [splitLines_append_newline _ (hmem l (List.mem_cons_self l _))]
      rw [ih (by simp) (fun x hx => hmem x (List.mem_cons_of_mem l hx))]

theorem natDigitsAux_digits :
    ∀ (fuel n : Nat) (acc : List Char),
      (∀ c ∈ acc, 48 ≤ c.toNat ∧ c.toNat ≤ 57) →
      ∀ c ∈ natDigitsAux fuel n acc, 48 ≤ c.toNat ∧ c.toNat ≤ 57 := by
  intro fuel
  induction fuel with
  | zero =>
    intro n acc hacc c hc
    cases n with
    | zero => exact hacc c hc
    | succ m => exact hacc c hc
  | succ f ih =>
    intro n acc hacc c hc
    cases n with
    | zero => exact hacc c hc
    | succ m =>
      refine ih _ _ ?_ c hc
      intro d hd
      rcases List.mem_cons.mp hd with h | h
      · subst h
        rw [toNat_ofNat_valid _ (by omega)]
        omega
      · exact hacc d h

theorem natDigits_digits (n : Nat) : ∀ c ∈ natDigits n, 48 ≤ c.toNat ∧ c.toNat ≤ 57 := by
  unfold natDigits
  split
  · intro c hc
    rcases List.mem_cons.mp hc with h | h
    · subst h; decide
    · simp at h
  · exact natDigitsAux_digits n n [] (by intro c hc; simp at hc)

theorem newline_not_mem_placeholder (id : Nat) : '\n' ∉ placeholder id := by
  intro h
  unfold placeholder at h
  rcases List.mem_append.mp h with h1 | h1
  · rcases List.mem_append.mp h1 with h2 | h2
    · exact absurd h2 (by decide)
    · have hd := natDigits_digits id _ h2
      have hn : ('\n'.toNat) = 10 := rfl
      omega
  · exact absurd h1 (by decide)

theorem newline_not_mem_replaceBlank {line : List Char} (b : Token × Nat)
    (h : '\n' ∉ line) : '\n' ∉ replaceBlank line b := by
  intro hmem
  unfold replaceBlank at hmem
  rcases List.mem_append.mp hmem with h1 | h1
  · rcases List.mem_append.mp h1 with h2 | h2
    · exact h (List.mem_of_mem_take h2)
    · exact newline_not_mem_placeholder _ h2
  · exact h (List.mem_of_mem_drop h1)

theorem newline_not_mem_foldl_replaceBlank :
    ∀ (ds : List (Token × Nat)) (line : List Char), '\n' ∉ line →
      '\n' ∉ ds.foldl replaceBlank line := by
  intro ds
  induction ds with
  | nil => intro line h; exact h
  | cons b bs ih =>
    intro line h
    exact ih _ (newline_not_mem_replaceBlank b h)

theorem newline_not_mem_encodeLine {line : List Char} (lbs : List (Token × Nat))
    (h : '\n' ∉ line) : '\n' ∉ encodeLine line lbs :=
  newline_not_mem_foldl_replaceBlank _ line h

theorem quizLines_length : ∀ (ls : List (List Char)) (ibs : List (Token × Nat)) (i : Nat),
    (quizLines ls ibs i).length = ls.length := by
  intro ls
  induction ls with
  | nil => intro ibs i; rfl
  | cons l ls ih =>
    intro ibs i
    show (_ :: quizLines ls ibs (i + 1)).length = _
    rw [List.length_cons, List.length_cons, ih]

theorem newline_not_mem_quizLines :
    ∀ (ls : List (List Char)) (ibs : List (Token × Nat)) (i : Nat),
      (∀ l ∈ ls, '\n' ∉ l) → ∀ l2 ∈ quizLines ls ibs i, '\n' ∉ l2 := by
  intro ls
  induction ls with
  | nil => intro ibs i _ l2 h2; simp [quizLines] at h2
  | cons l ls ih =>
    intro ibs i hls l2 h2
    rcases List.mem_cons.mp h2 with h | h
    · subst h
      split
      · exact hls l (List.mem_cons_self l ls)
      · exact newline_not_mem_encodeLine _ (hls l (List.mem_cons_self l ls))
    · exact ih ibs (i + 1) (fun x hx => hls x (List.mem_cons_of_mem l hx)) l2 h

/-- C10: the encoder preserves the line structure: for every text and every
blank list, splitting the output of `generateQuizLyrics` on `'\n'` yields
exactly as many lines as splitting the input — placeholders never introduce
or remove newlines. -/
theorem generateQuizLyrics_line_count (lyrics : List Char) (blanks : List Token) :
    (splitLines (generateQuizLyrics lyrics blanks)).length = (splitLines lyrics).length := by
  unfold generateQuizLyrics
  have hlen := quizLines_length (splitLines lyrics) (attachIds blanks 0) 0
  have hne : quizLines (splitLines lyrics) (attachIds blanks 0) 0 ≠ [] := by
    intro h
    rw [h] at hlen
    exact splitLines_ne_nil lyrics (List.length_eq_zero.mp hlen.symm)
  rw [splitLines_joinLines _ hne
    (newline_not_mem_quizLines _ _ _ (not_newline_mem_splitLines lyrics))]
  exact hlen

/-! ### Validity of a blank list and the splice normal form -/

/-- Non-overlap ordering required of a blank list: ascending `lineIndex`,
and within one line each span ends no later than the next span starts. -/
def blankNO (a b : Token) : Prop :=
  a.lineIndex < b.lineIndex ∨
    (a.lineIndex = b.lineIndex ∧ a.position + a.word.length ≤ b.position)

instance : DecidableRel blankNO := fun a b => by
  unfold blankNO; infer_instance

/-- A blank whose span lies inside its line, with a nonempty word. -/
def SpanOK (lines : List (List Char)) (b : Token) : Prop :=
  b.word ≠ [] ∧ b.lineIndex < lines.length ∧
    b.position + b.word.length ≤ (lines.getD b.lineIndex []).length

instance (lines : List (List Char)) (b : Token) : Decidable (SpanOK lines b) := by
  unfold SpanOK; infer_instance

/-- The hypothesis of the encoder claims: the blank list is position-sorted,
non-overlapping, and every span lies inside its line. -/
def ValidBlanks (lyrics : List Char) (blanks : List Token) : Prop :=
  List.Pairwise blankNO blanks ∧ ∀ b ∈ blanks, SpanOK (splitLines lyrics) b

instance (lyrics : List Char) (blanks : List Token) : Decidable (ValidBlanks lyrics blanks) := by
  unfold ValidBlanks; infer_instance

/-- The specification's description of line rewriting, written independently
of the code's descending-order mutation: walk the line's blanks in ascending
position order; keep the characters between `i` and the next blank's
position, emit the placeholder of the blank's id in place of the exact span
`[position, position + word.length)`, and continue after the span. -/
def spliceFrom (i : Nat) (line : List Char) : List (Token × Nat) → List Char
  | [] => line.drop i
  | b :: bs =>
    (line.drop i).take (b.1.position - i) ++ placeholder b.2 ++
      spliceFrom (b.1.position + b.1.word.length) line bs

/-- The specification's per-line map over all lines. -/
def spliceLines : List (List Char) → List (Token × Nat) → Nat → List (List Char)
  | [], _, _ => []
  | l :: ls, ibs, i => spliceFrom 0 l (lineBlanks ibs i) :: spliceLines ls ibs (i + 1)

/-- Chained validity of one line's blanks, ascending from offset `i` inside a
line of length `len`. -/
def ChainFrom (i len : Nat) : List (Token × Nat) → Prop
  | [] => True
  | b :: bs =>
    i ≤ b.1.position ∧ b.1.position + b.1.word.length ≤ len ∧
      ChainFrom (b.1.position + b.1.word.length) len bs

/-- Validity of one line's blank list against that line. -/
def LineOK (l : List Char) (lbs : List (Token × Nat)) : Prop :=
  (∀ b ∈ lbs, b.1.word ≠ []) ∧ ChainFrom 0 l.length lbs

/-- Total word length of a line's blanks. -/
def sumW (bs : List (Token × Nat)) : Nat :=
  (bs.map (fun b => b.1.word.length)).sum

/-- Total placeholder length of a line's blanks. -/
def sumPh (bs : List (Token × Nat)) : Nat :=
  (bs.map (fun b => (placeholder b.2).length)).sum

/-- The line of a text at a given index (empty when out of range). -/
def getLine (s : List Char) (li : Nat) : List Char :=
  (splitLines s).getD li []

theorem chainFrom_lb : ∀ (bs : List (Token × Nat)) (i len : Nat), ChainFrom i len bs →
    ∀ b ∈ bs, i ≤ b.1.position := by
  intro bs
  induction bs with
  | nil => intro i len _ b hb; simp at hb
  | cons a as ih =>
    intro i len hc b hb
    rcases hc with ⟨hi, hlen, hrest⟩
    rcases List.mem_cons.mp hb with h | h
    · subst h; exact hi
    · have := ih _ len hrest b h
      omega

theorem chain_of_pairwise : ∀ (bs : List (Token × Nat)) (i len : Nat),
    (∀ b ∈ bs, i ≤ b.1.position ∧ b.1.position + b.1.word.length ≤ len) →
    List.Pairwise (fun a b => a.1.position + a.1.word.length ≤ b.1.position) bs →
    ChainFrom i len bs := by
  intro bs
  induction bs with
  | nil => intro i len _ _; trivial
  | cons a as ih =>
    intro i len hb hp
    rcases List.pairwise_cons.mp hp with ⟨hhead, htail⟩
    have ha := hb a (List.mem_cons_self a as)
    refine ⟨ha.1, ha.2, ih _ len ?_ htail⟩
    intro b hbmem
    exact ⟨hhead b hbmem, (hb b (List.mem_cons_of_mem a hbmem)).2⟩

theorem chainFrom_pairwise_lt : ∀ (bs : List (Token × Nat)) (i len : Nat),
    (∀ b ∈ bs, b.1.word ≠ []) → ChainFrom i len bs →
    List.Pairwise (fun a b : Token × Nat => a.1.position < b.1.position) bs := by
  intro bs
  induction bs with
  | nil => intro i len _ _; exact List.Pairwise.nil
  | cons a as ih =>
    intro i len hw hc
    rcases hc with ⟨hi, hlen, hrest⟩
    refine List.pairwise_cons.mpr ⟨?_, ih _ len (fun b hb => hw b (List.mem_cons_of_mem a hb)) hrest⟩
    intro b hb
    have hlb := chainFrom_lb as _ len hrest b hb
    have hw1 : a.1.word.length ≠ 0 :=
      fun h => hw a (List.mem_cons_self a as) (List.length_eq_zero.mp h)
    omega

theorem orderedInsert_append_of_not (r : Token × Nat → Token × Nat → Prop) [DecidableRel r]
    (a : Token × Nat) : ∀ l : List (Token × Nat), (∀ y ∈ l, ¬ r a y) →
      List.orderedInsert r a l = l ++ [a] := by
  intro l
  induction l with
  | nil => intro _; rfl
  | cons y ys ih =>
    intro h
    show List.orderedInsert r a (y :: ys) = y :: (ys ++ [a])
    rw [List.orderedInsert, if_neg (h y (List.mem_cons_self y ys)), ih]
    intro z hz
    exact h z (List.mem_cons_of_mem y hz)

theorem insertionSort_descPos_of_strict :
    ∀ lbs : List (Token × Nat),
      List.Pairwise (fun a b : Token × Nat => a.1.position < b.1.position) lbs →
      List.insertionSort descPos lbs = lbs.reverse := by
  intro lbs
  induction lbs with
  | nil => intro _; rfl
  | cons b bs ih =>
    intro hp
    rcases List.pairwise_cons.mp hp with ⟨hb, htail⟩
    show List.orderedInsert descPos b (List.insertionSort descPos bs) = (b :: bs).reverse
    rw [ih htail, List.reverse_cons]
    apply orderedInsert_append_of_not
    intro y hy
    have := hb y (List.mem_reverse.mp hy)
    unfold descPos
    omega

theorem foldr_replace_spec :
    ∀ (bs : List (Token × Nat)) (line : List Char) (i : Nat),
      ChainFrom i line.length bs →
      (bs.foldr (fun b acc => replaceBlank acc b) line).take i = line.take i ∧
      (bs.foldr (fun b acc => replaceBlank acc b) line).drop i = spliceFrom i line bs := by
  intro bs
  induction bs with
  | nil => intro line i _; exact ⟨rfl, rfl⟩
  | cons b bs ih =>
    intro line i hc
    rcases hc with ⟨hip, hplen, hrest⟩
    set p := b.1.position with hp
    set w := b.1.word.length with hw
    set M := bs.foldr (fun b acc => replaceBlank acc b) line with hM
    obtain ⟨ihtake, ihdrop⟩ := ih line (p + w) hrest
    have hMlen : p + w ≤ M.length := by
      have h1 : (M.take (p + w)).length = (line.take (p + w)).length := by rw [ihtake]
      rw [List.length_take, List.length_take] at h1
      omega
    have hA : M.take p = line.take p := by
      have h2 := congrArg (fun t => List.take p t) ihtake
      simp only [List.take_take] at h2
      rwa [Nat.min_eq_left (Nat.le_add_right p w)] at h2
    have hAlen : (M.take p).length = p := by
      rw [List.length_take]
      omega
    have hMi : M.take i = line.take i := by
      have h3 := congrArg (fun t => List.take i t) hA
      simp only [List.take_take] at h3
      rwa [Nat.min_eq_left hip] at h3
    have hstep : (b :: bs).foldr (fun b acc => replaceBlank acc b) line =
        M.take p ++ placeholder b.2 ++ M.drop (p + w) := rfl
    constructor
    · rw [hstep, List.append_assoc, List.take_append_eq_append_take, hAlen,
        Nat.sub_eq_zero_of_le hip, List.take_zero, List.append_nil, List.take_take,
        Nat.min_eq_left hip]
      exact hMi
    · rw [hstep, List.append_assoc, List.drop_append_eq_append_drop, hAlen,
        Nat.sub_eq_zero_of_le hip, List.drop_zero]
      show (M.take p).drop i ++ (placeholder b.2 ++ M.drop (p + w)) = spliceFrom i line (b :: bs)
      rw [hA, List.drop_take, ihdrop]
      show (line.drop i).take (p - i) ++ (placeholder b.2 ++ spliceFrom (p + w) line bs) =
        (line.drop i).take (p - i) ++ placeholder b.2 ++ spliceFrom (p + w) line bs
      rw [List.append_assoc]

theorem encodeLine_eq_spliceFrom (l : List Char) (lbs : List (Token × Nat))
    (h : LineOK l lbs) : encodeLine l lbs = spliceFrom 0 l lbs := by
  rcases h with ⟨hw, hchain⟩
  unfold encodeLine
  rw [insertionSort_descPos_of_strict lbs (chainFrom_pairwise_lt lbs 0 l.length hw hchain),
    List.foldl_reverse]
  have := (foldr_replace_spec lbs l 0 hchain).2
  rwa [List.drop_zero] at this

theorem attachIds_map_fst : ∀ (bs : List Token) (i : Nat), (attachIds bs i).map Prod.fst = bs := by
  intro bs
  induction bs with
  | nil => intro i; rfl
  | cons b bs ih =>
    intro i
    show b :: (attachIds bs (i + 1)).map Prod.fst = b :: bs
    rw [ih]

theorem mem_lineBlanks {ibs : List (Token × Nat)} {li : Nat} {b : Token × Nat}
    (h : b ∈ lineBlanks ibs li) : b.1.lineIndex = li ∧ b ∈ ibs := by
  unfold lineBlanks at h
  have h2 := List.mem_filter.mp h
  exact ⟨beq_iff_eq.mp h2.2, h2.1⟩

theorem validBlanks_lineOK (lyrics : List Char) (blanks : List Token)
    (h : ValidBlanks lyrics blanks) (li : Nat) :
    LineOK ((splitLines lyrics).getD li []) (lineBlanks (attachIds blanks 0) li) := by
  obtain ⟨hpair, hspan⟩ := h
  have hfst : (attachIds blanks 0).map Prod.fst = blanks := attachIds_map_fst blanks 0
  have hpair2 : List.Pairwise (fun x y : Token × Nat => blankNO x.1 y.1) (attachIds blanks 0) := by
    rw [← hfst] at hpair
    exact List.pairwise_map.mp hpair
  have hmem : ∀ b ∈ attachIds blanks 0, SpanOK (splitLines lyrics) b.1 := by
    intro b hb
    apply hspan
    rw [← hfst]
    exact List.mem_map_of_mem Prod.fst hb
  constructor
  · intro b hb
    exact (hmem b (mem_lineBlanks hb).2).1
  · apply chain_of_pairwise
    · intro b hb
      obtain ⟨hli, hbibs⟩ := mem_lineBlanks hb
      have hs := hmem b hbibs
      refine ⟨Nat.zero_le _, ?_⟩
      rw [← hli]
      exact hs.2.2
    · have hp3 : List.Pairwise (fun x y : Token × Nat => blankNO x.1 y.1)
          (lineBlanks (attachIds blanks 0) li) := by
        unfold lineBlanks
        exact hpair2.filter _
      refine hp3.imp_of_mem ?_
      intro a b ha hb hab
      have hla := (mem_lineBlanks ha).1
      have hlb := (mem_lineBlanks hb).1
      unfold blankNO at hab
      rcases hab with h1 | h1
      · omega
      · exact h1.2

theorem quizLines_eq_spliceLines :
    ∀ (ls : List (List Char)) (ibs : List (Token × Nat)) (i : Nat),
      (∀ k, LineOK (ls.getD k []) (lineBlanks ibs (i + k))) →
      quizLines ls ibs i = spliceLines ls ibs i := by
  intro ls
  induction ls with
  | nil => intro ibs i _; rfl
  | cons l ls ih =>
    intro ibs i h
    show (if (lineBlanks ibs i).isEmpty then l else encodeLine l (lineBlanks ibs i)) ::
        quizLines ls ibs (i + 1) =
      spliceFrom 0 l (lineBlanks ibs i) :: spliceLines ls ibs (i + 1)
    have h0 := h 0
    rw [Nat.add_zero] at h0
    have hhead : (if (lineBlanks ibs i).isEmpty then l
        else encodeLine l (lineBlanks ibs i)) = spliceFrom 0 l (lineBlanks ibs i) := by
      split
      · next he =>
        rw [List.isEmpty_iff.mp he]
        rfl
      · exact encodeLine_eq_spliceFrom l _ h0
    rw [hhead, ih ibs (i + 1)]
    intro k
    have e : i + 1 + k = i + (k + 1) := by omega
    rw [e]
    have hk := h (k + 1)
    simp only [List.getD_cons_succ] at hk
    exact hk

theorem splitLines_generateQuizLyrics (lyrics : List Char) (blanks : List Token) :
    splitLines (generateQuizLyrics lyrics blanks) =
      quizLines (splitLines lyrics) (attachIds blanks 0) 0 := by
  unfold generateQuizLyrics
  have hlen := quizLines_length (splitLines lyrics) (attachIds blanks 0) 0
  have hne : quizLines (splitLines lyrics) (attachIds blanks 0) 0 ≠ [] := by
    intro h
    rw [h] at hlen
    exact splitLines_ne_nil lyrics (List.length_eq_zero.mp hlen.symm)
  exact splitLines_joinLines _ hne
    (newline_not_mem_quizLines _ _ _ (not_newline_mem_splitLines lyrics))

theorem quizLines_getD :
    ∀ (ls : List (List Char)) (ibs : List (Token × Nat)) (i li : Nat), li < ls.length →
      (quizLines ls ibs i).getD li [] =
        (if (lineBlanks ibs (i + li)).isEmpty then ls.getD li []
          else encodeLine (ls.getD li []) (lineBlanks ibs (i + li))) := by
  intro ls
  induction ls with
  | nil => intro ibs i li hli; simp at hli
  | cons l ls ih =>
    intro ibs i li hli
    cases li with
    | zero =>
      show ((if (lineBlanks ibs i).isEmpty then l else encodeLine l (lineBlanks ibs i)) ::
          quizLines ls ibs (i + 1)).getD 0 [] = _
      rw [List.getD_cons_zero, Nat.add_zero]
      rfl
    | succ k =>
      show ((if (lineBlanks ibs i).isEmpty then l else encodeLine l (lineBlanks ibs i)) ::
          quizLines ls ibs (i + 1)).getD (k + 1) [] = _
      rw [List.getD_cons_succ, List.getD_cons_succ,
        ih ibs (i + 1) k (Nat.lt_of_succ_lt_succ hli)]
      have e : i + 1 + k = i + (k + 1) := by omega
      rw [e]

theorem spliceFrom_length :
    ∀ (bs : List (Token × Nat)) (line : List Char) (i : Nat),
      ChainFrom i line.length bs →
      (spliceFrom i line bs).length + sumW bs = (line.length - i) + sumPh bs := by
  intro bs
  induction bs with
  | nil =>
    intro line i _
    show (line.drop i).length + 0 = (line.length - i) + 0
    rw [List.length_drop]
  | cons b bs ih =>
    intro line i hc
    rcases hc with ⟨hip, hplen, hrest⟩
    have hrec := ih line (b.1.position + b.1.word.length) hrest
    show ((line.drop i).take (b.1.position - i) ++ placeholder b.2 ++
        spliceFrom (b.1.position + b.1.word.length) line bs).length +
      sumW (b :: bs) = (line.length - i) + sumPh (b :: bs)
    have hsw : sumW (b :: bs) = b.1.word.length + sumW bs := by
      unfold sumW
      rw [List.map_cons, List.sum_cons]
    have hsp : sumPh (b :: bs) = (placeholder b.2).length + sumPh bs := by
      unfold sumPh
      rw [List.map_cons, List.sum_cons]
    rw [List.length_append, List.length_append, List.length_take, List.length_drop, hsw, hsp]
    omega

/-- C5: under a position-sorted, non-overlapping, in-bounds blank list, the
encoder — which processes each line's blanks in descending position order —
produces exactly the specification's splice normal form: every span
`[position, position + word.length)` replaced by `_____{id}_____`, lines
without blanks passed through unchanged (`spliceFrom 0 l [] = l`), and the
lines rejoined with a newline. -/
theorem generateQuizLyrics_eq_splice (lyrics : List Char) (blanks : List Token)
    (h : ValidBlanks lyrics blanks) :
    generateQuizLyrics lyrics blanks =
      joinLines (spliceLines (splitLines lyrics) (attachIds blanks 0) 0) := by
  unfold generateQuizLyrics
  rw [quizLines_eq_spliceLines (splitLines lyrics) (attachIds blanks 0) 0]
  intro k
  rw [Nat.zero_add]
  exact validBlanks_lineOK lyrics blanks h k

/-- C5 witness: the theorem instantiated on the Amazing-grace line with two
concrete valid blanks. -/
theorem generateQuizLyrics_eq_splice_witness :
    ValidBlanks "Amazing grace how sweet the sound".toList
      [⟨"Amazing".toList, 0, 0, 7⟩, ⟨"grace".toList, 0, 8, 5⟩] ∧
    generateQuizLyrics "Amazing grace how sweet the sound".toList
        [⟨"Amazing".toList, 0, 0, 7⟩, ⟨"grace".toList, 0, 8, 5⟩] =
      joinLines (spliceLines (splitLines "Amazing grace how sweet the sound".toList)
        (attachIds [⟨"Amazing".toList, 0, 0, 7⟩, ⟨"grace".toList, 0, 8, 5⟩] 0) 0) :=
  ⟨by decide, generateQuizLyrics_eq_splice _ _ (by decide)⟩

/-- C4: under a position-sorted, non-overlapping, in-bounds blank list, each
output line reconstructs the original line length: the output line's length
minus the lengths of the placeholders it carries, plus the lengths of the
original words they replaced, is the original line's length (stated
additively to stay in `Nat`). -/
theorem generateQuizLyrics_line_length (lyrics : List Char) (blanks : List Token)
    (h : ValidBlanks lyrics blanks) (li : Nat) (hli : li < (splitLines lyrics).length) :
    (getLine (generateQuizLyrics lyrics blanks) li).length +
        sumW (lineBlanks (attachIds blanks 0) li) =
      (getLine lyrics li).length + sumPh (lineBlanks (attachIds blanks 0) li) := by
  unfold getLine
  rw [splitLines_generateQuizLyrics,
    quizLines_getD (splitLines lyrics) (attachIds blanks 0) 0 li hli, Nat.zero_add]
  have hOK := validBlanks_lineOK lyrics blanks h li
  split
  · next he =>
    rw [List.isEmpty_iff.mp he]
    rfl
  · rw [encodeLine_eq_spliceFrom _ _ hOK]
    have := spliceFrom_length (lineBlanks (attachIds blanks 0) li)
      ((splitLines lyrics).getD li []) 0 hOK.2
    omega

/-- C4 witness: the length reconstruction at line 0 of the concrete
Amazing-grace example. -/
theorem generateQuizLyrics_line_length_witness :
    (ValidBlanks "Amazing grace how sweet the sound".toList
        [⟨"Amazing".toList, 0, 0, 7⟩, ⟨"grace".toList, 0, 8, 5⟩] ∧
      0 < (splitLines "Amazing grace how sweet the sound".toList).length) ∧
    (getLine (generateQuizLyrics "Amazing grace how sweet the sound".toList
          [⟨"Amazing".toList, 0, 0, 7⟩, ⟨"grace".toList, 0, 8, 5⟩]) 0).length +
        sumW (lineBlanks (attachIds [⟨"Amazing".toList, 0, 0, 7⟩,
          ⟨"grace".toList, 0, 8, 5⟩] 0) 0) =
      (getLine "Amazing grace how sweet the sound".toList 0).length +
        sumPh (lineBlanks (attachIds [⟨"Amazing".toList, 0, 0, 7⟩,
          ⟨"grace".toList, 0, 8, 5⟩] 0) 0) :=
  ⟨⟨by decide, by decide⟩,
    generateQuizLyrics_line_length _ _ (by decide) 0 (by decide)⟩

/-! ### Lemmas about the tokenizer -/

/-- The text ordering of tokens: ascending line, then strictly ascending
position within a line. -/
def textOrder (a b : Token) : Prop :=
  a.lineIndex < b.lineIndex ∨ (a.lineIndex = b.lineIndex ∧ a.position < b.position)

theorem tokenOfRun_some {li : Nat} {p : Nat × List Char} {t : Token}
    (h : tokenOfRun li p = some t) :
    t.word = (trimRun p).2 ∧ t.position = (trimRun p).1 ∧ t.lineIndex = li ∧
      t.length = t.word.length ∧ 2 < t.word.length ∧ lowerStr t.word ∉ commonWords := by
  unfold tokenOfRun at h
  split_ifs at h with h1 h2 h3
  obtain rfl := Option.some_inj.mp h.symm
  refine ⟨rfl, rfl, rfl, rfl, ?_, ?_⟩
  · show 2 < (trimRun p).2.length
    omega
  · show lowerStr (trimRun p).2 ∉ commonWords
    intro hm
    exact h3 (List.elem_eq_true_of_mem hm)

theorem trimCore_length_le (run : List Char) :
    (trimCore run).length ≤ (run.dropWhile (fun c => !(isWordChar c))).length := by
  unfold trimCore
  rw [List.length_reverse]
  calc ((run.dropWhile (fun c => !(isWordChar c))).reverse.dropWhile
          (fun c => !(isWordChar c))).length
      ≤ (run.dropWhile (fun c => !(isWordChar c))).reverse.length :=
        (List.dropWhile_sublist _).length_le
    _ = (run.dropWhile (fun c => !(isWordChar c))).length := List.length_reverse _

theorem trimRun_bounds (p : Nat × List Char) :
    p.1 ≤ (trimRun p).1 ∧ (trimRun p).1 + (trimRun p).2.length ≤ p.1 + p.2.length := by
  have hsplit : (p.2.takeWhile (fun c => !(isWordChar c))).length +
      (p.2.dropWhile (fun c => !(isWordChar c))).length = p.2.length := by
    rw [← List.length_append, List.takeWhile_append_dropWhile]
  have hcore := trimCore_length_le p.2
  have h1 : (trimRun p).1 = p.1 + (p.2.takeWhile (fun c => !(isWordChar c))).length := rfl
  have h2 : (trimRun p).2 = trimCore p.2 := rfl
  constructor
  · rw [h1]
    exact Nat.le_add_right _ _
  · rw [h1, h2]
    omega

theorem collectRuns_facts : ∀ (cs : List Char) (i : Nat),
    (∀ p ∈ collectRuns cs i, i ≤ p.1 ∧ p.1 + p.2.length ≤ i + cs.length) ∧
      List.Pairwise (fun a b : Nat × List Char => a.1 + a.2.length < b.1) (collectRuns cs i) := by
  intro cs
  induction cs with
  | nil =>
    intro i
    exact ⟨fun p hp => by simp [collectRuns] at hp, by simp [collectRuns]⟩
  | cons c cs ih =>
    intro i
    obtain ⟨ihb, ihp⟩ := ih (i + 1)
    by_cases hc : isClassChar c = true
    · cases hrest : collectRuns cs (i + 1) with
      | nil =>
        have heq : collectRuns (c :: cs) i = [(i, [c])] := by
          simp only [collectRuns, hc, if_true, hrest]
        rw [heq]
        refine ⟨?_, by simp⟩
        intro p hp
        rcases List.mem_cons.mp hp with h | h
        · subst h
          simp only [List.length_cons, List.length_nil]
          omega
        · simp at h
      | cons q rs =>
        obtain ⟨j, run⟩ := q
        rw [hrest] at ihb ihp
        by_cases hj : j = i + 1
        · have heq : collectRuns (c :: cs) i = (i, c :: run) :: rs := by
            simp only [collectRuns, hc, if_true, hrest, hj, if_pos rfl]
          rw [heq]
          have hjb := ihb (j, run) (List.mem_cons_self _ _)
          rcases List.pairwise_cons.mp ihp with ⟨hhead, htail⟩
          constructor
          · intro p hp
            rcases List.mem_cons.mp hp with h | h
            · subst h
              simp only [List.length_cons]
              simp only at hjb
              omega
            · have := ihb p (List.mem_cons_of_mem _ h)
              simp only [List.length_cons]
              omega
          · refine List.pairwise_cons.mpr ⟨?_, htail⟩
            intro b hb
            have := hhead b hb
            simp only [List.length_cons]
            simp only at this
            omega
        · have heq : collectRuns (c :: cs) i = (i, [c]) :: (j, run) :: rs := by
            simp only [collectRuns, hc, if_true, hrest, if_neg hj]
          rw [heq]
          have hjb := ihb (j, run) (List.mem_cons_self _ _)
          rcases List.pairwise_cons.mp ihp with ⟨hhead, htail⟩
          constructor
          · intro p hp
            rcases List.mem_cons.mp hp with h | h
            · subst h
              simp only [List.length_cons, List.length_nil]
              omega
            · have := ihb p h
              simp only [List.length_cons]
              omega
          · refine List.pairwise_cons.mpr ⟨?_, ihp⟩
            intro b hb
            rcases List.mem_cons.mp hb with h | h
            · subst h
              simp only [List.length_cons, List.length_nil]
              simp only at hjb
              omega
            · have h1 := hhead b h
              simp only [List.length_cons, List.length_nil]
              simp only at hjb
              omega
    · have heq : collectRuns (c :: cs) i = collectRuns cs (i + 1) := by
        simp only [collectRuns, hc, Bool.false_eq_true, if_false]
      rw [heq]
      refine ⟨?_, ihp⟩
      intro p hp
      have := ihb p hp
      simp only [List.length_cons]
      omega

theorem lineTokens_pairwise (line : List Char) (li : Nat) :
    List.Pairwise (fun a b : Token => a.position + a.word.length ≤ b.position)
      (lineTokens line li) := by
  unfold lineTokens
  refine List.Pairwise.filterMap (tokenOfRun li) ?_ (collectRuns_facts line 0).2
  intro a a2 hrel x hx y hy
  obtain ⟨hxw, hxp, _, _, _, _⟩ := tokenOfRun_some hx
  obtain ⟨hyw, hyp, _, _, _, _⟩ := tokenOfRun_some hy
  have hta := trimRun_bounds a
  have htb := trimRun_bounds a2
  rw [hxw, hxp, hyp]
  omega

theorem mem_lineTokens_fields {line : List Char} {li : Nat} {t : Token}
    (h : t ∈ lineTokens line li) :
    t.lineIndex = li ∧ 2 < t.word.length ∧ lowerStr t.word ∉ commonWords ∧
      t.length = t.word.length := by
  unfold lineTokens at h
  obtain ⟨p, _, hp⟩ := List.mem_filterMap.mp h
  obtain ⟨_, _, h3, h4, h5, h6⟩ := tokenOfRun_some hp
  exact ⟨h3, h5, h6, h4⟩

theorem mem_extractLines :
    ∀ (ls : List (List Char)) (i : Nat) (t : Token), t ∈ extractLines ls i →
      i ≤ t.lineIndex ∧ t.lineIndex - i < ls.length ∧
        isSkippedLine (ls.getD (t.lineIndex - i) []) = false ∧
        2 < t.word.length ∧ lowerStr t.word ∉ commonWords ∧ t.length = t.word.length := by
  intro ls
  induction ls with
  | nil => intro i t ht; simp [extractLines] at ht
  | cons l ls ih =>
    intro i t ht
    rcases List.mem_append.mp ht with h | h
    · by_cases hsk : isSkippedLine l = true
      · rw [if_pos hsk] at h
        simp at h
      · rw [if_neg hsk] at h
        obtain ⟨hli, hw, hstop, hlen⟩ := mem_lineTokens_fields h
        rw [hli]
        have hz : i - i = 0 := Nat.sub_self i
        rw [hz, List.getD_cons_zero]
        refine ⟨Nat.le_refl i, by simp, ?_, hw, hstop, hlen⟩
        exact Bool.eq_false_iff.mpr hsk
    · obtain ⟨h1, h2, h3, h4, h5, h6⟩ := ih (i + 1) t h
      have e : t.lineIndex - i = (t.lineIndex - (i + 1)) + 1 := by omega
      rw [e, List.getD_cons_succ]
      refine ⟨by omega, by simp only [List.length_cons]; omega, h3, h4, h5, h6⟩

theorem extractLines_pairwise :
    ∀ (ls : List (List Char)) (i : Nat), List.Pairwise textOrder (extractLines ls i) := by
  intro ls
  induction ls with
  | nil => intro i; exact List.Pairwise.nil
  | cons l ls ih =>
    intro i
    show List.Pairwise textOrder
      ((if isSkippedLine l then [] else lineTokens l i) ++ extractLines ls (i + 1))
    refine List.pairwise_append.mpr ⟨?_, ih (i + 1), ?_⟩
    · split
      · exact List.Pairwise.nil
      · refine (lineTokens_pairwise l i).imp_of_mem ?_
        intro a b ha hb hab
        have hla := (mem_lineTokens_fields ha).1
        have hlb := (mem_lineTokens_fields hb).1
        have hwa := (mem_lineTokens_fields ha).2.1
        unfold textOrder
        omega
    · intro a ha b hb
      have hb1 := (mem_extractLines ls (i + 1) b hb).1
      have ha1 : a.lineIndex = i := by
        rcases Bool.eq_false_or_eq_true (isSkippedLine l) with hsk | hsk
        · rw [hsk] at ha
          simp at ha
        · rw [hsk] at ha
          simp only [Bool.false_eq_true, if_false] at ha
          exact (mem_lineTokens_fields ha).1
      unfold textOrder
      omega

/-- C8: `extractWords` only ever emits tokens from lines that are neither
whitespace-only nor a single bracketed marker, every emitted token has length
greater than 2 and a lower-cased form outside the fixed stoplist, the tokens
come out in text order (ascending line index, then strictly ascending
position), and on `"The cat sat on a mat.\n"` exactly `cat`, `sat`, `mat`
survive at their offsets. -/
theorem extractWords_filters_and_example :
    (∀ (text : List Char) (t : Token), t ∈ extractWords text →
        2 < t.word.length ∧ lowerStr t.word ∉ commonWords ∧
        isSkippedLine (getLine text t.lineIndex) = false) ∧
    (∀ text : List Char, List.Pairwise textOrder (extractWords text)) ∧
    extractWords "The cat sat on a mat.\n".toList =
      [⟨"cat".toList, 0, 4, 3⟩, ⟨"sat".toList, 0, 8, 3⟩, ⟨"mat".toList, 0, 17, 3⟩] := by
  refine ⟨?_, ?_, by decide⟩
  · intro text t ht
    obtain ⟨h1, h2, h3, h4, h5, h6⟩ := mem_extractLines (splitLines text) 0 t ht
    rw [Nat.sub_zero] at h3
    exact ⟨h4, h5, h3⟩
  · intro text
    exact extractLines_pairwise (splitLines text) 0

end LyricsIQ
